import Mathlib

/-!
Shallow embedding of the live-histogram classroom app (`src/app.py`).

The app's core is:
  * a SQLite-backed value store (`add_value`, `clear_values`, `read_values`)
    serialized through a single lock (`DB_LOCK`);
  * a descriptive-statistics block (numpy/scipy: `nanmean`, `nanvar(ddof=1)`,
    `skew(bias=False)`, `kurtosis(fisher=True, bias=False)`, ...);
  * a rendering pipeline (`np.histogram` bucketing, optional `gaussian_kde`
    density overlay with a presentation rescale);
  * a value formatter (`format_value`) with per-statistic precisions
    (`stat_precision`).

Machine doubles are embedded as exact rationals (`ℚ`), with an explicit
`PyFloat` wrapper where NaN/±inf can occur (user input, statistic results).
SQLite rows become an explicit `Store` state record; `AUTOINCREMENT` id
assignment becomes an explicit `nextId` counter.  Timestamps are opaque
strings passed in by the caller.
-/

namespace StatApp

/-- A Python float: either a finite value (embedded as an exact rational)
or one of the non-finite IEEE values NaN, +inf, -inf. -/
inductive PyFloat where
  | finite (q : ℚ)
  | nan
  | posInf
  | negInf
deriving DecidableEq

/-- `np.isfinite` / `math.isfinite` on a `PyFloat`. -/
def PyFloat.isFinite : PyFloat → Bool
  | .finite _ => true
  | _ => false

/-- The rational payload of a finite `PyFloat` (0 for non-finite values;
only ever used behind an `isFinite` guard, as in the source). -/
def PyFloat.toRat : PyFloat → ℚ
  | .finite q => q
  | _ => 0

/-- One row of the `entries` table (`id INTEGER PRIMARY KEY AUTOINCREMENT,
value REAL NOT NULL, created_at TEXT NOT NULL`). -/
structure Obs where
  id : Nat
  value : ℚ
  created_at : String
deriving DecidableEq

/-- The persistent state behind `data.db`: the rows of `entries` in rowid
(insertion) order, plus the `AUTOINCREMENT` sequence counter, i.e. the id
the next inserted row will receive.  SQLite starts ids at 1 and, with
`AUTOINCREMENT`, never reuses an id after `DELETE`. -/
structure Store where
  entries : List Obs
  nextId : Nat
deriving DecidableEq

/-- A fresh database: no rows, first id will be 1. -/
def emptyStore : Store := ⟨[], 1⟩

/-- `add_value(v)` (src/app.py:202-210): inserts one row; SQLite assigns the
next `AUTOINCREMENT` id and the caller-supplied UTC timestamp is stored.
The surrounding `DB_LOCK` makes the whole operation atomic; here it is a
single state transition. -/
def add_value (v : ℚ) (t : String) (s : Store) : Store :=
  { entries := s.entries ++ [⟨s.nextId, v, t⟩], nextId := s.nextId + 1 }

/-- `clear_values()` (src/app.py:213-218): `DELETE FROM entries` removes all
rows but, because the table is declared `AUTOINCREMENT`, does not reset the
id sequence. -/
def clear_values (s : Store) : Store :=
  { entries := [], nextId := s.nextId }

/-- Insert one row into a list kept ascending by id (used to model SQL
`ORDER BY id ASC`). -/
def insertAscById (o : Obs) : List Obs → List Obs
  | [] => [o]
  | x :: xs => if o.id ≤ x.id then o :: x :: xs else x :: insertAscById o xs

/-- `ORDER BY id ASC`: insertion sort of the rows by ascending id. -/
def sortAscById : List Obs → List Obs
  | [] => []
  | x :: xs => insertAscById x (sortAscById xs)

/-- Insert one row into a list kept descending by id (used to model SQL
`ORDER BY id DESC`). -/
def insertDescById (o : Obs) : List Obs → List Obs
  | [] => [o]
  | x :: xs => if x.id ≤ o.id then o :: x :: xs else x :: insertDescById o xs

/-- `ORDER BY id DESC`: insertion sort of the rows by descending id. -/
def sortDescById : List Obs → List Obs
  | [] => []
  | x :: xs => insertDescById x (sortDescById xs)

/-- SQLite `LIMIT l` semantics: a negative limit means "no limit". -/
def sqlLimit (l : Int) (xs : List Obs) : List Obs :=
  if l < 0 then xs else xs.take l.toNat

/-- `read_values(limit)` (src/app.py:221-234).  Python tests `if limit:`,
which is true exactly for a non-`None`, non-zero limit; in that branch the
query is `ORDER BY id DESC LIMIT ?` followed by `df.iloc[::-1]` (a reversal),
otherwise `ORDER BY id ASC`.  Reading opens and closes a connection but
never mutates rows, so it is modelled as a pure function of the store. -/
def read_values (limit : Option Int) (s : Store) : List Obs :=
  match limit with
  | some l =>
      if l ≠ 0 then (sqlLimit l (sortDescById s.entries)).reverse
      else sortAscById s.entries
  | none => sortAscById s.entries

/-- Fold `add_value` over a list of (value, timestamp) pairs: the effect of
calling the insert path once per value, in order. -/
def insertAll (vs : List (ℚ × String)) (s : Store) : Store :=
  vs.foldl (fun st p => add_value p.1 p.2 st) s

/-- The rows produced by inserting `vs` in order starting from id `i`. -/
def rowsFrom (i : Nat) : List (ℚ × String) → List Obs
  | [] => []
  | p :: ps => ⟨i, p.1, p.2⟩ :: rowsFrom (i + 1) ps

/-- Store well-formedness: rows are in strictly increasing id order and all
ids are below the `AUTOINCREMENT` counter.  This is exactly the state space
reachable through `add_value`/`clear_values`, and what SQLite guarantees. -/
def StoreWF (s : Store) : Prop :=
  List.Pairwise (fun a b => a.id < b.id) s.entries ∧ ∀ o ∈ s.entries, o.id < s.nextId

instance (s : Store) : Decidable (StoreWF s) := by
  unfold StoreWF; infer_instance

/-! ## Formatter (`format_value`, src/app.py:238-255, and `stat_precision`,
src/app.py:421-431) -/

/-- Python `round` / the rounding used by `f"{v:.df}"`: round half to even.
On exact rationals this is: take the floor, then compare the fractional part
with 1/2, breaking the tie towards the even integer. -/
def roundHalfEven (q : ℚ) : ℤ :=
  let f := ⌊q⌋
  let r := q - f
  if r < 1/2 then f
  else if 1/2 < r then f + 1
  else if f % 2 = 0 then f else f + 1

/-- Left-pad the decimal digits of `m` with zeros to width `d`. -/
def padZeros (d : Nat) (m : Nat) : String :=
  let s := toString m
  String.mk (List.replicate (d - s.length) '0') ++ s

/-- Python fixed-point formatting `f"{q:.df}"` for `d ≥ 1` on an exact
rational: round `q·10^d` half-to-even to an integer `n`, then print sign
(taken from `q` itself, so `-0.0001` at 3 decimals prints as `-0.000`),
integer part, point, and `d` fractional digits. -/
def fixedFormat (q : ℚ) (d : Nat) : String :=
  let n := roundHalfEven (q * 10 ^ d)
  let mag := n.natAbs
  let sign := if q < 0 then "-" else ""
  sign ++ toString (mag / 10 ^ d) ++ "." ++ padZeros d (mag % 10 ^ d)

/-- Python `s.rstrip(c)` for a single character: drop every trailing
occurrence of `c`. -/
def rstripChar (c : Char) (s : String) : String :=
  String.mk ((s.toList.reverse.dropWhile (· == c)).reverse)

/-- `format_value(value, decimals)` (src/app.py:238-255), translated branch
by branch: `None` and non-finite floats give the placeholder `"—"`;
`decimals == 0` gives `f"{int(round(v))}"`; otherwise fixed-point formatting
followed by `rstrip("0").rstrip(".")`, with `"0"` as the fallback should the
stripped string be empty.  (The `try: float(value)` guard cannot fail on a
float/int input, so it has no branch here.) -/
def format_value (value : Option PyFloat) (decimals : Nat) : String :=
  match value with
  | none => "—"
  | some v =>
      if !v.isFinite then "—"
      else
        let numeric_value := v.toRat
        if decimals == 0 then toString (roundHalfEven numeric_value)
        else
          let formatted := rstripChar '.' (rstripChar '0' (fixedFormat numeric_value decimals))
          if formatted = "" then "0" else formatted

/-- The `stat_precision` dict (src/app.py:421-431) together with the
`.get(key, 3)` default used at src/app.py:435. -/
def stat_precision (key : String) : Nat :=
  (([("N", 0), ("Mean", 2), ("Median", 2), ("Variance", 3), ("SD", 2),
     ("Skewness", 3), ("Kurtosis (excess)", 3), ("Min", 2), ("Max", 2)]
    : List (String × Nat)).lookup key).getD 3

/-- The formatting contract as the spec words it: placeholder for
undefined/non-finite; otherwise render at the fixed precision (an integer
for precision 0, else fixed-point with trailing zeros and a trailing
decimal point stripped, falling back to "0" if stripping empties the
string). -/
def formatContract (value : Option PyFloat) (decimals : Nat) : String :=
  match value with
  | some v =>
      if v.isFinite then
        if decimals = 0 then toString (roundHalfEven v.toRat)
        else
          let stripped := rstripChar '.' (rstripChar '0' (fixedFormat v.toRat decimals))
          if stripped.isEmpty then "0" else stripped
      else "—"
  | none => "—"

/-! ## Statistics engine (src/app.py:410-419) -/

/-- `np.nanmean` on an all-finite sample: the arithmetic mean. -/
def nanmean (xs : List ℚ) : ℚ := xs.sum / xs.length

/-- The k-th central sample moment `m_k = (1/N) Σ (x - mean)^k`, the
quantity scipy's `skew`/`kurtosis` are built from. -/
def centralMoment (k : Nat) (xs : List ℚ) : ℚ :=
  (xs.map fun x => (x - nanmean xs) ^ k).sum / xs.length

/-- `np.nanvar(x, ddof=1)` on an all-finite sample: sum of squared
deviations over `N - 1`. -/
def nanvar (xs : List ℚ) : ℚ :=
  (xs.map fun x => (x - nanmean xs) ^ 2).sum / ((xs.length : ℚ) - 1)

/-- A value of the form `coeff · √radicand`, the exact shape of the
standard deviation and of scipy's bias-corrected skewness. -/
structure QuadVal where
  coeff : ℚ
  radicand : ℚ
deriving DecidableEq

/-- `stats["Variance"]` (src/app.py:414): `np.nanvar(x, ddof=1)` when
`x.size > 1`, else NaN (modelled as `none`, which the formatter renders as
the placeholder). -/
def varianceStat (xs : List ℚ) : Option ℚ :=
  if 1 < xs.length then some (nanvar xs) else none

/-- `stats["SD"]` (src/app.py:415): `np.nanstd(x, ddof=1) = √nanvar` when
`x.size > 1`, else NaN.  The value is `1·√(nanvar xs)`. -/
def sdStat (xs : List ℚ) : Option QuadVal :=
  if 1 < xs.length then some ⟨1, nanvar xs⟩ else none

/-- `stats["Skewness"]` (src/app.py:416): `scipy.stats.skew(x, bias=False)`
when `x.size > 2`, else NaN.  scipy computes
`G1 = √(n(n-1))/(n-2) · m3/m2^{3/2}` and explicitly yields NaN when the
second central moment is (numerically) zero, e.g. on a constant sample.
Exactly, `G1 = (m3/((n-2)·m2²)) · √(n(n-1)·m2)`. -/
def skewnessStat (xs : List ℚ) : Option QuadVal :=
  if 2 < xs.length then
    let n : ℚ := xs.length
    let m2 := centralMoment 2 xs
    let m3 := centralMoment 3 xs
    if m2 = 0 then none
    else some ⟨m3 / ((n - 2) * m2 ^ 2), n * (n - 1) * m2⟩
  else none

/-- `stats["Kurtosis (excess)"]` (src/app.py:417):
`scipy.stats.kurtosis(x, fisher=True, bias=False)` when `x.size > 3`, else
NaN.  scipy yields NaN when the second central moment is zero; otherwise the
bias-corrected Fisher excess kurtosis
`G2 = ((n²-1)·m4/m2² - 3(n-1)²) / ((n-2)(n-3))`, an exact rational. -/
def kurtosisStat (xs : List ℚ) : Option ℚ :=
  if 3 < xs.length then
    let n : ℚ := xs.length
    let m2 := centralMoment 2 xs
    let m4 := centralMoment 4 xs
    if m2 = 0 then none
    else some (((n ^ 2 - 1) * m4 / m2 ^ 2 - 3 * (n - 1) ^ 2) / ((n - 2) * (n - 3)))
  else none

/-! ## Histogram bucketing (`np.histogram` / `ax.hist`, src/app.py:370-381) -/

/-- `np.min` of a non-empty sample (0 on the empty list, never used there:
the render path is guarded by `x.size == 0`). -/
def minQ : List ℚ → ℚ
  | [] => 0
  | [x] => x
  | x :: y :: ys => min x (minQ (y :: ys))

/-- `np.max` of a non-empty sample. -/
def maxQ : List ℚ → ℚ
  | [] => 0
  | [x] => x
  | x :: y :: ys => max x (maxQ (y :: ys))

/-- numpy's outer histogram edges (`_get_outer_edges`): `[min, max]`, but
widened to `[min - 0.5, max + 0.5]` when the range is empty (all sample
values equal). -/
def histRange (xs : List ℚ) : ℚ × ℚ :=
  let lo := minQ xs
  let hi := maxQ xs
  if lo = hi then (lo - 1/2, hi + 1/2) else (lo, hi)

/-- The `j`-th of the `B+1` equal-width bin edges over `[lo, hi]`
(`np.linspace(lo, hi, B+1)`). -/
def binEdge (lo hi : ℚ) (B : Nat) (j : Nat) : ℚ :=
  lo + j * (hi - lo) / B

/-- The bin index numpy assigns to an in-range value: `⌊(v-lo)·B/(hi-lo)⌋`,
with a value landing exactly on the top edge clamped into the last bin
(numpy's `indices[indices == n_bins] -= 1`), which is what makes the last
bin closed on both ends. -/
def binIdx (lo hi : ℚ) (B : Nat) (v : ℚ) : Nat :=
  min (⌊(v - lo) * B / (hi - lo)⌋).toNat (B - 1)

/-- `np.histogram(x, bins=B)` bucket counts (matplotlib's `ax.hist`
delegates to the same function): the count of sample values assigned to
each of the `B` bins over the outer edges. -/
def histogramCounts (xs : List ℚ) (B : Nat) : List Nat :=
  (List.range B).map fun j =>
    xs.countP fun v => binIdx (histRange xs).1 (histRange xs).2 B v == j

/-! ## Density overlay (src/app.py:376-385) -/

/-- `np.linspace a b n`: `n` equally spaced points from `a` to `b`
inclusive. -/
def linspace (a b : ℚ) (n : Nat) : List ℚ :=
  (List.range n).map fun i => a + (b - a) * i / (n - 1)

/-- Maximum of a non-empty list of rationals (`np.max` over the density
samples). -/
def maxList (l : List ℚ) : ℚ := maxQ l

/-- Maximum of the (non-empty) histogram counts, `counts.max()`. -/
def maxNat : List Nat → Nat
  | [] => 0
  | [x] => x
  | x :: y :: ys => max x (maxNat (y :: ys))

/-- The density overlay curve: sample points and rescaled y-values. -/
structure Overlay where
  pts : List ℚ
  ys : List ℚ
deriving DecidableEq

/-- The histogram figure: the bucket counts that are always drawn, plus the
optional density curve. -/
structure HistFigure where
  counts : List Nat
  overlay : Option Overlay
deriving DecidableEq

/-- The overlay block (src/app.py:376-385).  `kdeOf` stands for
`scipy.stats.gaussian_kde`: given the sample it either fails
(`Except.error`, e.g. singular covariance on a constant sample — the
`except: pass` branch) or yields the fitted density function.  The guard is
`show_density and x.size >= 2 and np.all(np.isfinite(x))`; sample values
are embedded as rationals, hence finite, so the last conjunct is true by
construction.  On success: 500 sample points over `[x.min(), x.max()]`,
`ys` scaled by `counts.max()/ys.max()` (or `1.0` when the density peak is
not positive). -/
def densityOverlay (kdeOf : List ℚ → Except Unit (ℚ → ℚ))
    (show_density : Bool) (xs : List ℚ) (B : Nat) : Option Overlay :=
  if show_density && decide (2 ≤ xs.length) then
    match kdeOf xs with
    | .error _ => none
    | .ok kde =>
        let pts := linspace (minQ xs) (maxQ xs) 500
        let ys := pts.map kde
        let counts := histogramCounts xs B
        let scale := if 0 < maxList ys then (maxNat counts : ℚ) / maxList ys else 1
        some ⟨pts, ys.map (· * scale)⟩
  else none

/-- The whole histogram branch of the renderer: the bars are always drawn
from the bucket counts; the overlay is added only when its guard holds and
KDE fitting succeeds. -/
def renderHistogram (kdeOf : List ℚ → Except Unit (ℚ → ℚ))
    (show_density : Bool) (xs : List ℚ) (B : Nat) : HistFigure :=
  ⟨histogramCounts xs B, densityOverlay kdeOf show_density xs B⟩

/-! ## The add-button handler (src/app.py:300-312) -/

/-- The user-visible outcome of the add-button handler: one of the four
`st.toast` messages. -/
inductive Toast where
  | added
  | missingNumber
  | notFinite
  | failed
deriving DecidableEq

/-- The `if add_btn:` block (src/app.py:300-312): a missing number is
rejected; a non-finite number (`not np.isfinite(x)`) is rejected with the
invalid-value notice; only a finite number reaches `add_value`.
(`float(number)` cannot raise on the float produced by `st.number_input`,
so the `except` branch is unreachable.) -/
def addBtnHandler (number : Option PyFloat) (t : String) (s : Store) :
    Store × Toast :=
  match number with
  | none => (s, .missingNumber)
  | some x =>
      if x.isFinite then (add_value x.toRat t s, .added)
      else (s, .notFinite)

/-! ## Concurrency model (DB_LOCK, src/app.py:184-185, 202-218)

`add_value` runs `with DB_LOCK: connect; INSERT; commit; close`.  We model
`n` threads, each executing one `add_value(vals i)`, as an interleaving
(reflexive-transitive closure) of per-thread micro-steps over a shared
state.  The critical section is split into genuinely racy micro-steps —
read the `AUTOINCREMENT` sequence into a thread-local register, then write
the row and bump the sequence — so that mutual exclusion via the `lock`
field is what rules out duplicate ids and lost writes. -/

/-- Program counter of one thread running `add_value`. -/
inductive TPC where
  | ready
  | haveLock
  | gotSeq (r : Nat)
  | inserted
  | done
deriving DecidableEq

/-- Is the thread inside the `with DB_LOCK:` block? -/
def TPC.critical : TPC → Bool
  | .haveLock => true
  | .gotSeq _ => true
  | .inserted => true
  | _ => false

/-- Has the thread's row already been written to the table? -/
def TPC.appended : TPC → Bool
  | .inserted => true
  | .done => true
  | _ => false

/-- Shared state: the store, the holder of `DB_LOCK` (if any), and every
thread's program counter. -/
structure CState (n : Nat) where
  store : Store
  lock : Option (Fin n)
  pcs : Fin n → TPC

/-- Interleaving micro-steps of `n` threads each executing
`add_value (vals i) (ts i)` once. -/
inductive CStep (n : Nat) (vals : Fin n → ℚ) (ts : Fin n → String) :
    CState n → CState n → Prop where
  | acquire (st : CState n) (i : Fin n) :
      st.lock = none → st.pcs i = .ready →
      CStep n vals ts st
        ⟨st.store, some i, Function.update st.pcs i .haveLock⟩
  | readSeq (st : CState n) (i : Fin n) :
      st.lock = some i → st.pcs i = .haveLock →
      CStep n vals ts st
        ⟨st.store, st.lock, Function.update st.pcs i (.gotSeq st.store.nextId)⟩
  | writeRow (st : CState n) (i : Fin n) (r : Nat) :
      st.lock = some i → st.pcs i = .gotSeq r →
      CStep n vals ts st
        ⟨⟨st.store.entries ++ [⟨r, vals i, ts i⟩], r + 1⟩, st.lock,
         Function.update st.pcs i .inserted⟩
  | commitRelease (st : CState n) (i : Fin n) :
      st.lock = some i → st.pcs i = .inserted →
      CStep n vals ts st
        ⟨st.store, none, Function.update st.pcs i .done⟩

/-- Initial state: some prior store contents, lock free, every thread about
to call `add_value`. -/
def initState (n : Nat) (s0 : Store) : CState n :=
  ⟨s0, none, fun _ => .ready⟩

/-- Reachability by interleaving the micro-steps in any order. -/
def Reaches (n : Nat) (vals : Fin n → ℚ) (ts : Fin n → String)
    (a b : CState n) : Prop :=
  Relation.ReflTransGen (CStep n vals ts) a b

/-! ## Store lemmas -/

theorem insertAll_nil (s : Store) : insertAll [] s = s := rfl

theorem insertAll_cons (p : ℚ × String) (ps : List (ℚ × String)) (s : Store) :
    insertAll (p :: ps) s = insertAll ps (add_value p.1 p.2 s) := rfl

theorem insertAll_entries (vs : List (ℚ × String)) : ∀ s : Store,
    (insertAll vs s).entries = s.entries ++ rowsFrom s.nextId vs := by
  induction vs with
  | nil => intro s; simp [insertAll, rowsFrom]
  | cons p ps ih =>
      intro s
      rw [insertAll_cons, ih]
      simp [add_value, rowsFrom]

theorem insertAll_nextId (vs : List (ℚ × String)) : ∀ s : Store,
    (insertAll vs s).nextId = s.nextId + vs.length := by
  induction vs with
  | nil => intro s; simp [insertAll]
  | cons p ps ih =>
      intro s
      rw [insertAll_cons, ih]
      simp [add_value]
      omega

theorem rowsFrom_map_id (vs : List (ℚ × String)) : ∀ i : Nat,
    (rowsFrom i vs).map Obs.id = List.range' i vs.length := by
  induction vs with
  | nil => intro i; simp [rowsFrom]
  | cons p ps ih => intro i; simp [rowsFrom, List.range'_succ, ih]

theorem rowsFrom_map_value (vs : List (ℚ × String)) : ∀ i : Nat,
    (rowsFrom i vs).map Obs.value = vs.map Prod.fst := by
  induction vs with
  | nil => intro i; simp [rowsFrom]
  | cons p ps ih => intro i; simp [rowsFrom, ih]

theorem mem_rowsFrom_id_ge {o : Obs} {i : Nat} {vs : List (ℚ × String)}
    (h : o ∈ rowsFrom i vs) : i ≤ o.id := by
  have hm : o.id ∈ (rowsFrom i vs).map Obs.id := List.mem_map_of_mem Obs.id h
  rw [rowsFrom_map_id] at hm
  exact (List.mem_range'_1.1 hm).1

theorem pairwise_rowsFrom (vs : List (ℚ × String)) (i : Nat) :
    List.Pairwise (fun a b => a.id < b.id) (rowsFrom i vs) := by
  have h : List.Pairwise (· < ·) ((rowsFrom i vs).map Obs.id) := by
    rw [rowsFrom_map_id]; exact List.pairwise_lt_range' i vs.length
  exact (List.pairwise_map.1 h)

theorem wf_emptyStore : StoreWF emptyStore := by
  constructor
  · exact List.Pairwise.nil
  · intro o ho; cases ho

theorem wf_add_value {s : Store} (h : StoreWF s) (v : ℚ) (t : String) :
    StoreWF (add_value v t s) := by
  obtain ⟨hp, hb⟩ := h
  constructor
  · rw [add_value]
    refine List.pairwise_append.2 ⟨hp, List.pairwise_singleton _ _, ?_⟩
    intro a ha b hb'
    simp only [List.mem_singleton] at hb'
    subst hb'
    exact hb a ha
  · intro o ho
    rw [add_value] at ho
    rcases List.mem_append.1 ho with h1 | h1
    · exact Nat.lt_succ_of_lt (hb o h1)
    · simp only [List.mem_singleton] at h1
      subst h1
      exact Nat.lt_succ_self _

theorem wf_insertAll (vs : List (ℚ × String)) : ∀ s : Store, StoreWF s →
    StoreWF (insertAll vs s) := by
  induction vs with
  | nil => intro s h; exact h
  | cons p ps ih =>
      intro s h
      rw [insertAll_cons]
      exact ih _ (wf_add_value h p.1 p.2)

theorem wf_clear_values (s : Store) : StoreWF (clear_values s) := by
  constructor
  · exact List.Pairwise.nil
  · intro o ho; cases ho

/-! ## Sorting lemmas: on well-formed stores the SQL `ORDER BY` clauses
reduce to the identity / the reversal. -/

theorem sortAscById_eq_self : ∀ {l : List Obs},
    List.Pairwise (fun a b => a.id < b.id) l → sortAscById l = l := by
  intro l
  induction l with
  | nil => intro _; rfl
  | cons x xs ih =>
      intro h
      rw [List.pairwise_cons] at h
      rw [sortAscById, ih h.2]
      cases xs with
      | nil => rfl
      | cons y ys =>
          have hxy : x.id ≤ y.id := le_of_lt (h.1 y (List.mem_cons_self y ys))
          simp [insertAscById, hxy]

theorem insertDescById_eq_append {o : Obs} : ∀ {l : List Obs},
    (∀ y ∈ l, o.id < y.id) → insertDescById o l = l ++ [o] := by
  intro l
  induction l with
  | nil => intro _; rfl
  | cons x xs ih =>
      intro h
      have hx : ¬ x.id ≤ o.id := not_le_of_lt (h x (List.mem_cons_self x xs))
      simp only [insertDescById, if_neg hx, List.cons_append]
      rw [ih fun y hy => h y (List.mem_cons_of_mem x hy)]

theorem sortDescById_eq_reverse : ∀ {l : List Obs},
    List.Pairwise (fun a b => a.id < b.id) l → sortDescById l = l.reverse := by
  intro l
  induction l with
  | nil => intro _; rfl
  | cons x xs ih =>
      intro h
      rw [List.pairwise_cons] at h
      rw [sortDescById, ih h.2, List.reverse_cons]
      exact insertDescById_eq_append fun y hy => h.1 y (List.mem_reverse.1 hy)

theorem insertAscById_length (o : Obs) : ∀ l : List Obs,
    (insertAscById o l).length = l.length + 1 := by
  intro l
  induction l with
  | nil => rfl
  | cons x xs ih =>
      by_cases hc : o.id ≤ x.id
      · simp [insertAscById, hc]
      · simp [insertAscById, hc, ih]

theorem sortAscById_length : ∀ l : List Obs, (sortAscById l).length = l.length := by
  intro l
  induction l with
  | nil => rfl
  | cons x xs ih => rw [sortAscById, insertAscById_length, ih, List.length_cons]

theorem read_values_none {s : Store} (h : StoreWF s) :
    read_values none s = s.entries :=
  sortAscById_eq_self h.1

theorem read_values_pos {s : Store} {n : Int} (h : StoreWF s) (hn : 0 < n) :
    read_values (some n) s = s.entries.drop (s.entries.length - n.toNat) := by
  have hne : n ≠ 0 := ne_of_gt hn
  have hneg : ¬ n < 0 := not_lt_of_gt hn
  rw [read_values, if_pos hne, sqlLimit, if_neg hneg, sortDescById_eq_reverse h.1,
      List.take_reverse, List.reverse_reverse]

/-! ## Claim theorems: the value store -/

/-- Claim C1: inserting finite values v1..vn in order through `add_value`
and then reading all observations (`read_values` with no limit) returns the
values in the same order, with strictly increasing ids. -/
theorem insert_read_roundtrip (vs : List (ℚ × String)) :
    (read_values none (insertAll vs emptyStore)).map Obs.value = vs.map Prod.fst ∧
    List.Chain' (· < ·) ((read_values none (insertAll vs emptyStore)).map Obs.id) := by
  have hwf : StoreWF (insertAll vs emptyStore) := wf_insertAll vs emptyStore wf_emptyStore
  rw [read_values_none hwf, insertAll_entries]
  constructor
  · simp [emptyStore, rowsFrom_map_value]
  · refine (List.chain'_map Obs.id).2 ?_
    refine List.Pairwise.chain' ?_
    simpa [emptyStore] using pairwise_rowsFrom vs 1

/-- Claim C2: a non-finite value (NaN, +inf, -inf) submitted through the
add-button path is rejected with the invalid-value notice and leaves the
stored observation count unchanged; `add_value` is never reached. -/
theorem nonfinite_insert_rejected (x : PyFloat) (t : String) (s : Store)
    (hx : x.isFinite = false) :
    addBtnHandler (some x) t s = (s, Toast.notFinite) ∧
    ((addBtnHandler (some x) t s).1).entries.length = s.entries.length := by
  constructor
  · simp [addBtnHandler, hx]
  · simp [addBtnHandler, hx]

theorem nonfinite_insert_rejected_nan :
    addBtnHandler (some PyFloat.nan) "" emptyStore = (emptyStore, Toast.notFinite) ∧
    ((addBtnHandler (some PyFloat.nan) "" emptyStore).1).entries.length =
      emptyStore.entries.length :=
  nonfinite_insert_rejected PyFloat.nan "" emptyStore rfl

/-- Claim C4: for a positive limit `n`, `read_values` returns the `n`
most-recently-inserted observations — the final segment of the (ascending)
entries, hence all of them when fewer than `n` exist — in ascending id
order.  The read is modelled as a pure function of the store: it performs
no mutation. -/
theorem read_recent_spec (s : Store) (n : Int) (hwf : StoreWF s) (hn : 0 < n) :
    read_values (some n) s = s.entries.drop (s.entries.length - n.toNat) ∧
    List.Chain' (· < ·) ((read_values (some n) s).map Obs.id) := by
  have hr := read_values_pos hwf hn
  refine ⟨hr, ?_⟩
  rw [hr]
  refine (List.chain'_map Obs.id).2 (List.Pairwise.chain' ?_)
  exact hwf.1.sublist (List.drop_sublist _ _)

/-- The store after inserting the scenario values [1,2,3,4,5]. -/
def demoStore : Store :=
  insertAll [(1, ""), (2, ""), (3, ""), (4, ""), (5, "")] emptyStore

theorem read_recent_demo :
    (read_values (some 3) demoStore).map Obs.value = [3, 4, 5] := by
  have h := read_recent_spec demoStore 3 (by decide) (by decide)
  rw [h.1]
  decide

/-- Claim C9: `limit = 0` is falsy in Python, so `read_values(0)` takes the
no-limit branch: it returns all stored observations in ascending id order,
exactly like a read with `limit = None`, not an empty sequence. -/
theorem read_limit_zero (s : Store) :
    read_values (some 0) s = read_values none s ∧
    read_values (some 0) s = sortAscById s.entries ∧
    (read_values (some 0) s).length = s.entries.length := by
  refine ⟨rfl, rfl, ?_⟩
  show (sortAscById s.entries).length = s.entries.length
  exact sortAscById_length s.entries

/-- Claim C10: ids are never reused across a clear: the table is declared
`AUTOINCREMENT`, and `clear_values` deletes rows without resetting the id
sequence, so every id assigned after a clear is strictly greater than every
id present before it. -/
theorem ids_not_reused (s : Store) (vs : List (ℚ × String)) (hwf : StoreWF s) :
    ((insertAll vs (clear_values s)).entries.all fun o =>
      s.entries.all fun o2 => decide (o2.id < o.id)) = true := by
  simp only [List.all_eq_true, decide_eq_true_eq]
  intro o ho o2 ho2
  rw [insertAll_entries] at ho
  simp only [clear_values, List.nil_append] at ho
  have h1 : s.nextId ≤ o.id := mem_rowsFrom_id_ge ho
  exact lt_of_lt_of_le (hwf.2 o2 ho2) h1

/-- The store holding a single value, inserted before a clear. -/
def demoStore2 : Store := insertAll [(7, "")] emptyStore

theorem ids_not_reused_demo :
    ((insertAll [(9, "")] (clear_values demoStore2)).entries.all fun o =>
      demoStore2.entries.all fun o2 => decide (o2.id < o.id)) = true :=
  ids_not_reused demoStore2 [(9, "")] (by decide)

/-! ## Claim theorems: statistics engine definedness (C3) -/

/-- Claim C3 counterexample: at or above its sample-size threshold a
statistic is *not* always a defined real number.  On the constant sample
[1,1,1] (N = 3) scipy's `skew(bias=False)` yields NaN because the second
central moment is zero, and likewise `kurtosis` on [2,2,2,2] (N = 4); the
app then shows the undefined placeholder. -/
theorem skewness_undefined_on_constant_sample :
    3 ≤ ([1, 1, 1] : List ℚ).length ∧ skewnessStat [1, 1, 1] = none ∧
    4 ≤ ([2, 2, 2, 2] : List ℚ).length ∧ kurtosisStat [2, 2, 2, 2] = none := by
  refine ⟨by decide, ?_, by decide, ?_⟩
  · rw [skewnessStat]
    norm_num [centralMoment, nanmean]
  · rw [kurtosisStat]
    norm_num [centralMoment, nanmean]

/-- Claim C3 (amended): `variance` and `standardDeviation` are undefined
for N < 2 and defined exactly when N ≥ 2; `skewness` is undefined for
N < 3 and defined exactly when N ≥ 3 *and* the second central moment is
nonzero (constant samples give NaN); `excessKurtosis` is undefined for
N < 4 and defined exactly when N ≥ 4 and the second central moment is
nonzero. -/
theorem stats_definedness (xs : List ℚ) :
    ((varianceStat xs).isSome ↔ 2 ≤ xs.length) ∧
    ((sdStat xs).isSome ↔ 2 ≤ xs.length) ∧
    ((skewnessStat xs).isSome ↔ 3 ≤ xs.length ∧ centralMoment 2 xs ≠ 0) ∧
    ((kurtosisStat xs).isSome ↔ 4 ≤ xs.length ∧ centralMoment 2 xs ≠ 0) := by
  refine ⟨?_, ?_, ?_, ?_⟩
  · by_cases h : 1 < xs.length
    · simp only [varianceStat, if_pos h, Option.isSome_some, true_iff]
      omega
    · simp only [varianceStat, if_neg h, Option.isSome_none]
      constructor
      · intro hc; cases hc
      · intro hc; omega
  · by_cases h : 1 < xs.length
    · simp only [sdStat, if_pos h, Option.isSome_some, true_iff]
      omega
    · simp only [sdStat, if_neg h, Option.isSome_none]
      constructor
      · intro hc; cases hc
      · intro hc; omega
  · by_cases h : 2 < xs.length
    · by_cases hm : centralMoment 2 xs = 0
      · simp only [skewnessStat, if_pos h, if_pos hm, Option.isSome_none]
        constructor
        · intro hc; cases hc
        · intro hc; exact (hc.2 hm).elim
      · simp only [skewnessStat, if_pos h, if_neg hm, Option.isSome_some, true_iff]
        exact ⟨by omega, hm⟩
    · simp only [skewnessStat, if_neg h, Option.isSome_none]
      constructor
      · intro hc; cases hc
      · intro hc; omega
  · by_cases h : 3 < xs.length
    · by_cases hm : centralMoment 2 xs = 0
      · simp only [kurtosisStat, if_pos h, if_pos hm, Option.isSome_none]
        constructor
        · intro hc; cases hc
        · intro hc; exact (hc.2 hm).elim
      · simp only [kurtosisStat, if_pos h, if_neg hm, Option.isSome_some, true_iff]
        exact ⟨by omega, hm⟩
    · simp only [kurtosisStat, if_neg h, Option.isSome_none]
      constructor
      · intro hc; cases hc
      · intro hc; omega

/-! ## Claim theorems: the formatter (C7) -/

/-- Claim C7: the formatter renders each statistic at its fixed precision
(count `"N"`: 0 decimals; mean/median/SD/min/max: 2; variance/skewness/
kurtosis: 3), strips trailing zeros and a trailing decimal point from the
fixed-point string, falls back to `"0"` when stripping empties the string,
and returns the placeholder `"—"` for undefined (`None`) or non-finite
values: `format_value` coincides with the contract, and `stat_precision`
assigns exactly the claimed precisions. -/
theorem format_value_contract :
    (∀ (v : Option PyFloat) (d : Nat), format_value v d = formatContract v d) ∧
    stat_precision "N" = 0 ∧ stat_precision "Mean" = 2 ∧
    stat_precision "Median" = 2 ∧ stat_precision "SD" = 2 ∧
    stat_precision "Min" = 2 ∧ stat_precision "Max" = 2 ∧
    stat_precision "Variance" = 3 ∧ stat_precision "Skewness" = 3 ∧
    stat_precision "Kurtosis (excess)" = 3 := by
  refine ⟨?_, rfl, rfl, rfl, rfl, rfl, rfl, rfl, rfl, rfl⟩
  intro v d
  cases v with
  | none => rfl
  | some x =>
      cases x with
      | nan => rfl
      | posInf => rfl
      | negInf => rfl
      | finite q =>
          by_cases hd : d = 0
          · subst hd; rfl
          · simp only [format_value, formatContract, PyFloat.isFinite,
              Bool.not_true, Bool.false_eq_true, if_false, if_neg hd,
              beq_iff_eq, String.isEmpty_iff, if_true]

/-! ## Histogram lemmas (C5) -/

theorem minQ_le : ∀ (xs : List ℚ), ∀ v ∈ xs, minQ xs ≤ v := by
  intro xs
  induction xs with
  | nil => intro v hv; cases hv
  | cons x t ih =>
      cases t with
      | nil =>
          intro v hv
          rw [List.mem_singleton] at hv
          subst hv
          exact le_refl _
      | cons y ys =>
          intro v hv
          rcases List.mem_cons.1 hv with h | h
          · subst h; exact min_le_left _ _
          · exact le_trans (min_le_right _ _) (ih v h)

theorem le_maxQ : ∀ (xs : List ℚ), ∀ v ∈ xs, v ≤ maxQ xs := by
  intro xs
  induction xs with
  | nil => intro v hv; cases hv
  | cons x t ih =>
      cases t with
      | nil =>
          intro v hv
          rw [List.mem_singleton] at hv
          subst hv
          exact le_refl _
      | cons y ys =>
          intro v hv
          rcases List.mem_cons.1 hv with h | h
          · subst h; exact le_max_left _ _
          · exact le_trans (ih v h) (le_max_right _ _)

theorem minQ_le_maxQ {xs : List ℚ} (h : xs ≠ []) : minQ xs ≤ maxQ xs := by
  cases xs with
  | nil => exact absurd rfl h
  | cons x t =>
      exact le_trans (minQ_le _ x (List.mem_cons_self x t))
        (le_maxQ _ x (List.mem_cons_self x t))

theorem histRange_fst_lt_snd {xs : List ℚ} (h : xs ≠ []) :
    (histRange xs).1 < (histRange xs).2 := by
  rw [histRange]
  by_cases hc : minQ xs = maxQ xs
  · rw [if_pos hc]
    simp only
    rw [hc]
    linarith
  · rw [if_neg hc]
    simp only
    exact lt_of_le_of_ne (minQ_le_maxQ h) hc

theorem histRange_bounds {xs : List ℚ} {v : ℚ} (hv : v ∈ xs) :
    (histRange xs).1 ≤ v ∧ v ≤ (histRange xs).2 := by
  rw [histRange]
  by_cases hc : minQ xs = maxQ xs
  · rw [if_pos hc]
    constructor
    · simp only
      linarith [minQ_le xs v hv]
    · simp only
      linarith [le_maxQ xs v hv]
  · rw [if_neg hc]
    exact ⟨minQ_le xs v hv, le_maxQ xs v hv⟩

theorem binIdx_lt {lo hi : ℚ} {B : Nat} (hB : 0 < B) (v : ℚ) :
    binIdx lo hi B v < B :=
  lt_of_le_of_lt (Nat.min_le_right _ _) (by omega)

theorem sum_map_add_nat (l : List ℕ) (f g : ℕ → ℕ) :
    (l.map fun j => f j + g j).sum = (l.map f).sum + (l.map g).sum := by
  induction l with
  | nil => rfl
  | cons x t ih =>
      simp only [List.map_cons, List.sum_cons, ih]
      omega

theorem sum_map_eq_zero {l : List ℕ} {g : ℕ → ℕ} (h : ∀ j ∈ l, g j = 0) :
    (l.map g).sum = 0 := by
  induction l with
  | nil => rfl
  | cons x t ih =>
      simp only [List.map_cons, List.sum_cons]
      rw [h x (List.mem_cons_self x t), ih fun j hj => h j (List.mem_cons_of_mem x hj)]

theorem indicator_sum (B a : Nat) (h : a < B) :
    ((List.range B).map fun j => if a = j then 1 else 0).sum = 1 := by
  induction B with
  | zero => omega
  | succ n ih =>
      rw [List.range_succ, List.map_append, List.sum_append]
      by_cases hc : a = n
      · subst hc
        rw [sum_map_eq_zero fun j hj => by
          rw [if_neg]; intro he; subst he; exact absurd (List.mem_range.1 hj) (lt_irrefl a)]
        simp
      · rw [ih (by omega)]
        simp [hc]

theorem sum_countP_eq_length {α : Type} (xs : List α) (f : α → Nat) (B : Nat)
    (h : ∀ a ∈ xs, f a < B) :
    ((List.range B).map fun j => xs.countP fun a => f a == j).sum = xs.length := by
  induction xs with
  | nil =>
      simp only [List.countP_nil, List.length_nil]
      exact sum_map_eq_zero fun j _ => rfl
  | cons a t ih =>
      have hat : f a < B := h a (List.mem_cons_self a t)
      have ht : ∀ x ∈ t, f x < B := fun x hx => h x (List.mem_cons_of_mem a hx)
      simp only [List.countP_cons, List.length_cons]
      rw [sum_map_add_nat, ih ht]
      have hone : ((List.range B).map fun j => if (f a == j) = true then 1 else 0).sum = 1 := by
        simp only [beq_iff_eq]
        exact indicator_sum B (f a) hat
      rw [hone]

theorem binEdge_le_iff {lo hi : ℚ} {B : Nat} (hw : lo < hi) (hB : 0 < B)
    (v : ℚ) (j : Nat) :
    binEdge lo hi B j ≤ v ↔ (j : ℚ) ≤ (v - lo) * B / (hi - lo) := by
  have hw' : (0 : ℚ) < hi - lo := by linarith
  have hB' : (0 : ℚ) < (B : ℚ) := by exact_mod_cast hB
  rw [binEdge]
  constructor
  · intro h
    have h2 : (j : ℚ) * (hi - lo) / B ≤ v - lo := by linarith
    have h3 : (j : ℚ) * (hi - lo) ≤ (v - lo) * B := (div_le_iff₀ hB').1 h2
    exact (le_div_iff₀ hw').2 h3
  · intro h
    have h3 : (j : ℚ) * (hi - lo) ≤ (v - lo) * B := (le_div_iff₀ hw').1 h
    have h2 : (j : ℚ) * (hi - lo) / B ≤ v - lo := (div_le_iff₀ hB').2 h3
    linarith

theorem lt_binEdge_iff {lo hi : ℚ} {B : Nat} (hw : lo < hi) (hB : 0 < B)
    (v : ℚ) (j : Nat) :
    v < binEdge lo hi B j ↔ (v - lo) * B / (hi - lo) < (j : ℚ) := by
  have hw' : (0 : ℚ) < hi - lo := by linarith
  have hB' : (0 : ℚ) < (B : ℚ) := by exact_mod_cast hB
  rw [binEdge]
  constructor
  · intro h
    have h2 : v - lo < (j : ℚ) * (hi - lo) / B := by linarith
    have h3 : (v - lo) * B < (j : ℚ) * (hi - lo) := (lt_div_iff₀ hB').1 h2
    exact (div_lt_iff₀ hw').2 h3
  · intro h
    have h3 : (v - lo) * B < (j : ℚ) * (hi - lo) := (div_lt_iff₀ hw').1 h
    have h2 : v - lo < (j : ℚ) * (hi - lo) / B := (lt_div_iff₀ hB').2 h3
    linarith

theorem binIdx_t_nonneg {lo hi : ℚ} {B : Nat} (hw : lo < hi) {v : ℚ}
    (hv1 : lo ≤ v) : 0 ≤ (v - lo) * (B : ℚ) / (hi - lo) := by
  have hw' : (0 : ℚ) < hi - lo := by linarith
  exact div_nonneg (mul_nonneg (by linarith) (by positivity)) (le_of_lt hw')

theorem binIdx_eq_iff_of_lt {lo hi : ℚ} {B : Nat} (hw : lo < hi) (hB : 0 < B)
    {v : ℚ} (hv1 : lo ≤ v) {j : Nat} (hj : j + 1 < B) :
    binIdx lo hi B v = j ↔
      (binEdge lo hi B j ≤ v ∧ v < binEdge lo hi B (j + 1)) := by
  have ht0 : 0 ≤ (v - lo) * (B : ℚ) / (hi - lo) := binIdx_t_nonneg hw hv1
  have hf0 : 0 ≤ ⌊(v - lo) * (B : ℚ) / (hi - lo)⌋ := Int.floor_nonneg.2 ht0
  rw [binEdge_le_iff hw hB, lt_binEdge_iff hw hB, binIdx]
  constructor
  · intro h
    rw [Nat.min_def] at h
    have hfl : (⌊(v - lo) * (B : ℚ) / (hi - lo)⌋).toNat = j := by
      split_ifs at h <;> omega
    have hfl2 : ⌊(v - lo) * (B : ℚ) / (hi - lo)⌋ = (j : ℤ) := by omega
    have hiff := Int.floor_eq_iff.1 hfl2
    constructor
    · exact_mod_cast hiff.1
    · have := hiff.2
      push_cast
      push_cast at this
      linarith
  · intro h
    have hfl2 : ⌊(v - lo) * (B : ℚ) / (hi - lo)⌋ = (j : ℤ) := by
      rw [Int.floor_eq_iff]
      constructor
      · exact_mod_cast h.1
      · have := h.2
        push_cast
        push_cast at this
        linarith
    rw [hfl2]
    simp only [Int.toNat_ofNat, Int.toNat_natCast]
    exact Nat.min_eq_left (by omega)

theorem binIdx_eq_last_iff {lo hi : ℚ} {B : Nat} (hw : lo < hi) (hB : 0 < B)
    {v : ℚ} (hv1 : lo ≤ v) :
    binIdx lo hi B v = B - 1 ↔ binEdge lo hi B (B - 1) ≤ v := by
  have ht0 : 0 ≤ (v - lo) * (B : ℚ) / (hi - lo) := binIdx_t_nonneg hw hv1
  have hf0 : 0 ≤ ⌊(v - lo) * (B : ℚ) / (hi - lo)⌋ := Int.floor_nonneg.2 ht0
  rw [binEdge_le_iff hw hB, binIdx]
  constructor
  · intro h
    rw [Nat.min_def] at h
    have hge : ((B - 1 : Nat) : ℤ) ≤ ⌊(v - lo) * (B : ℚ) / (hi - lo)⌋ := by
      split_ifs at h <;> omega
    exact_mod_cast Int.le_floor.1 hge
  · intro h
    have hge : ((B - 1 : Nat) : ℤ) ≤ ⌊(v - lo) * (B : ℚ) / (hi - lo)⌋ :=
      Int.le_floor.2 (by exact_mod_cast h)
    rw [Nat.min_def]
    split_ifs with hc <;> omega

theorem histogramCounts_getD (xs : List ℚ) (B : Nat) {j : Nat} (hj : j < B) :
    (histogramCounts xs B).getD j 0 =
      xs.countP fun v => binIdx (histRange xs).1 (histRange xs).2 B v == j := by
  rw [histogramCounts]
  simp only [List.getD_eq_getElem?_getD, List.getElem?_map, List.getElem?_range hj,
    Option.map_some', Option.getD_some]

/-- Claim C5 counterexample: the bins do not always span `[min, max]`.
On the constant sample [5] (non-empty, all finite) numpy's histogram
widens the empty range to `[4.5, 5.5]`, so the outer edges differ from
`[min, max] = [5, 5]`. -/
theorem histogram_range_not_minmax :
    minQ [(5 : ℚ)] = 5 ∧ maxQ [(5 : ℚ)] = 5 ∧
    histRange [(5 : ℚ)] = (9 / 2, 11 / 2) ∧
    ((9 : ℚ) / 2, (11 : ℚ) / 2) ≠ ((5 : ℚ), (5 : ℚ)) := by
  refine ⟨rfl, rfl, ?_, ?_⟩
  · rw [histRange]
    norm_num [minQ, maxQ, Prod.ext_iff]
  · norm_num [Prod.ext_iff]

/-- Claim C5 (amended): for every non-empty finite value sequence and
bucket count B in [5, 60], the histogram builder produces B equal-width
bins whose edges span `[min, max]` whenever `min < max` (on a constant
sample numpy widens the range to `[v - 0.5, v + 0.5]` instead); every bin
is half-open `[e_j, e_{j+1})` except the last, which is closed
`[e_{B-1}, e_B]`; and the per-bin counts sum exactly to N. -/
theorem histogram_spec (xs : List ℚ) (B : Nat) (hxs : xs ≠ [])
    (hB5 : 5 ≤ B) (hB60 : B ≤ 60) :
    (histogramCounts xs B).length = B ∧
    (histogramCounts xs B).sum = xs.length ∧
    (minQ xs < maxQ xs → histRange xs = (minQ xs, maxQ xs)) ∧
    (minQ xs = maxQ xs → histRange xs = (minQ xs - 1/2, maxQ xs + 1/2)) ∧
    binEdge (histRange xs).1 (histRange xs).2 B 0 = (histRange xs).1 ∧
    binEdge (histRange xs).1 (histRange xs).2 B B = (histRange xs).2 ∧
    (∀ j : Nat, binEdge (histRange xs).1 (histRange xs).2 B (j + 1)
        - binEdge (histRange xs).1 (histRange xs).2 B j
        = ((histRange xs).2 - (histRange xs).1) / B) ∧
    (∀ j : Nat, j + 1 < B →
      (histogramCounts xs B).getD j 0 = xs.countP fun v =>
        decide (binEdge (histRange xs).1 (histRange xs).2 B j ≤ v) &&
        decide (v < binEdge (histRange xs).1 (histRange xs).2 B (j + 1))) ∧
    ((histogramCounts xs B).getD (B - 1) 0 = xs.countP fun v =>
      decide (binEdge (histRange xs).1 (histRange xs).2 B (B - 1) ≤ v) &&
      decide (v ≤ binEdge (histRange xs).1 (histRange xs).2 B B)) := by
  have hB : 0 < B := by omega
  have hw : (histRange xs).1 < (histRange xs).2 := histRange_fst_lt_snd hxs
  have hBQ : ((B : ℚ)) ≠ 0 := by positivity
  refine ⟨?_, ?_, ?_, ?_, ?_, ?_, ?_, ?_, ?_⟩
  · simp [histogramCounts]
  · rw [histogramCounts]
    exact sum_countP_eq_length xs _ B fun a _ => binIdx_lt hB a
  · intro h
    rw [histRange, if_neg (ne_of_lt h)]
  · intro h
    rw [histRange, if_pos h]
  · rw [binEdge]
    simp
  · rw [binEdge]
    field_simp
  · intro j
    rw [binEdge, binEdge]
    push_cast
    field_simp
    ring
  · intro j hj
    rw [histogramCounts_getD xs B (by omega : j < B)]
    refine List.countP_congr ?_
    intro v hv
    obtain ⟨hv1, hv2⟩ := histRange_bounds hv
    simp only [beq_iff_eq, Bool.and_eq_true, decide_eq_true_eq]
    exact binIdx_eq_iff_of_lt hw hB hv1 hj
  · rw [histogramCounts_getD xs B (by omega : B - 1 < B)]
    refine List.countP_congr ?_
    intro v hv
    obtain ⟨hv1, hv2⟩ := histRange_bounds hv
    simp only [beq_iff_eq, Bool.and_eq_true, decide_eq_true_eq]
    have hlast := binIdx_eq_last_iff hw hB hv1 (v := v)
    have htop : binEdge (histRange xs).1 (histRange xs).2 B B = (histRange xs).2 := by
      rw [binEdge]; field_simp
    constructor
    · intro h
      exact ⟨hlast.1 h, by rw [htop]; exact hv2⟩
    · intro h
      exact hlast.2 h.1

theorem histogram_spec_witness :
    ([(0 : ℚ), 1, 2] ≠ []) ∧ 5 ≤ 5 ∧ 5 ≤ 60 ∧
    (histogramCounts [(0 : ℚ), 1, 2] 5).sum = ([(0 : ℚ), 1, 2]).length :=
  ⟨by simp, by omega, by omega,
    (histogram_spec [(0 : ℚ), 1, 2] 5 (by simp) (by omega) (by omega)).2.1⟩

/-! ## Claim theorems: density overlay (C6) -/

/-- Claim C6: when the overlay is enabled and N ≥ 2 (sample values are
finite by construction of the embedding), a successful KDE fit is sampled
at 500 equally spaced points over `[min, max]` and multiplied by
`scale = max(counts) / max(densities)` — or `1.0` when the density peak is
not positive — while a failing KDE fit (`gaussian_kde` raising) omits the
overlay and leaves the histogram itself rendered unchanged. -/
theorem density_overlay_spec (xs : List ℚ) (B : Nat) (k : ℚ → ℚ)
    (h2 : 2 ≤ xs.length) :
    ((renderHistogram (fun _ => Except.ok k) true xs B).overlay =
      some ⟨linspace (minQ xs) (maxQ xs) 500,
        ((linspace (minQ xs) (maxQ xs) 500).map k).map
          (· * (if 0 < maxList ((linspace (minQ xs) (maxQ xs) 500).map k)
                then (maxNat (histogramCounts xs B) : ℚ) /
                  maxList ((linspace (minQ xs) (maxQ xs) 500).map k)
                else 1))⟩) ∧
    (renderHistogram (fun _ => Except.error ()) true xs B).overlay = none ∧
    (renderHistogram (fun _ => Except.error ()) true xs B).counts =
      histogramCounts xs B ∧
    (renderHistogram (fun _ => Except.ok k) true xs B).counts =
      histogramCounts xs B := by
  refine ⟨?_, ?_, rfl, rfl⟩
  · simp [renderHistogram, densityOverlay, h2]
  · simp [renderHistogram, densityOverlay, h2]

theorem density_overlay_spec_witness :
    (renderHistogram (fun _ => Except.error ()) true [(0 : ℚ), 1] 15).overlay = none :=
  (density_overlay_spec [(0 : ℚ), 1] 15 (fun _ => 1) (by simp)).2.1

/-! ## Concurrency lemmas (C8) -/

/-- The set of threads whose row is already in the table. -/
def appendedSet {n : Nat} (pcs : Fin n → TPC) : Finset (Fin n) :=
  Finset.univ.filter fun i => (pcs i).appended = true

theorem appendedSet_update_of_eq {n : Nat} (pcs : Fin n → TPC) (i : Fin n)
    (v : TPC) (h : v.appended = (pcs i).appended) :
    appendedSet (Function.update pcs i v) = appendedSet pcs := by
  unfold appendedSet
  refine Finset.filter_congr ?_
  intro j _
  by_cases hj : j = i
  · subst hj
    rw [Function.update_same, h]
  · rw [Function.update_noteq hj]

theorem appendedSet_update_insert {n : Nat} (pcs : Fin n → TPC) (i : Fin n)
    (v : TPC) (hv : v.appended = true) (hi : (pcs i).appended = false) :
    appendedSet (Function.update pcs i v) = insert i (appendedSet pcs) ∧
    i ∉ appendedSet pcs := by
  constructor
  · ext j
    simp only [appendedSet, Finset.mem_filter, Finset.mem_univ, true_and,
      Finset.mem_insert]
    by_cases hj : j = i
    · subst hj
      rw [Function.update_same]
      simp [hv]
    · rw [Function.update_noteq hj]
      simp [hj]
  · simp only [appendedSet, Finset.mem_filter, Finset.mem_univ, true_and]
    rw [hi]
    simp

/-- The inductive invariant for `n` concurrent `add_value` calls starting
from store `s0`: the lock holder is exactly the thread inside the critical
section; a thread that has read the sequence value holds the current one;
and the store consists of the original rows followed by one row per
already-appended thread, with consecutive fresh ids and exactly those
threads' values. -/
def ConcInv {n : Nat} (vals : Fin n → ℚ) (s0 : Store) (st : CState n) : Prop :=
  (∀ j : Fin n, (st.pcs j).critical = true ↔ st.lock = some j) ∧
  (∀ (i : Fin n) (r : Nat), st.pcs i = .gotSeq r → r = st.store.nextId) ∧
  st.store.nextId = s0.nextId + (appendedSet st.pcs).card ∧
  st.store.entries.length = s0.entries.length + (appendedSet st.pcs).card ∧
  st.store.entries.take s0.entries.length = s0.entries ∧
  (st.store.entries.drop s0.entries.length).map Obs.id =
    List.range' s0.nextId (appendedSet st.pcs).card ∧
  (((st.store.entries.drop s0.entries.length).map Obs.value : List ℚ) : Multiset ℚ) =
    (appendedSet st.pcs).val.map vals

theorem concInv_init (n : Nat) (vals : Fin n → ℚ) (s0 : Store) :
    ConcInv vals s0 (initState n s0) := by
  have hset : appendedSet (fun _ : Fin n => TPC.ready) = (∅ : Finset (Fin n)) := by
    unfold appendedSet
    refine Finset.filter_false_of_mem ?_
    intro j _
    simp [TPC.appended]
  refine ⟨?_, ?_, ?_, ?_, ?_, ?_, ?_⟩
  · intro j
    simp [initState, TPC.critical]
  · intro i r h
    simp only [initState] at h
    cases h
  · simp [initState, hset]
  · simp [initState, hset]
  · simp [initState]
  · simp [initState, hset]
  · simp [initState, hset]

theorem concInv_step {n : Nat} {vals : Fin n → ℚ} {ts : Fin n → String}
    {s0 : Store} {st st' : CState n}
    (hstep : CStep n vals ts st st') (hinv : ConcInv vals s0 st) :
    ConcInv vals s0 st' := by
  obtain ⟨hlock, hseq, hnext, hlen, htake, hids, hvals⟩ := hinv
  cases hstep with
  | acquire i hl hpc =>
      have hset : appendedSet (Function.update st.pcs i TPC.haveLock) =
          appendedSet st.pcs :=
        appendedSet_update_of_eq st.pcs i TPC.haveLock (by rw [hpc]; rfl)
      refine ⟨?_, ?_, by simpa [hset] using hnext, by simpa [hset] using hlen,
        htake, by simpa [hset] using hids, by simpa [hset] using hvals⟩
      · intro j
        dsimp only
        by_cases hj : j = i
        · subst hj
          simp [Function.update_same, TPC.critical]
        · rw [Function.update_noteq hj]
          constructor
          · intro hc
            exact absurd (hl ▸ (hlock j).1 hc) (by simp)
          · intro hc
            exact absurd (Option.some.inj hc) (fun he => hj he.symm)
      · intro j r hj
        dsimp only at hj ⊢
        by_cases hji : j = i
        · subst hji
          rw [Function.update_same] at hj
          cases hj
        · rw [Function.update_noteq hji] at hj
          exact hseq j r hj
  | readSeq i hl hpc =>
      have hset : appendedSet (Function.update st.pcs i (TPC.gotSeq st.store.nextId)) =
          appendedSet st.pcs :=
        appendedSet_update_of_eq st.pcs i _ (by rw [hpc]; rfl)
      refine ⟨?_, ?_, by simpa [hset] using hnext, by simpa [hset] using hlen,
        htake, by simpa [hset] using hids, by simpa [hset] using hvals⟩
      · intro j
        dsimp only
        by_cases hj : j = i
        · subst hj
          simp only [Function.update_same, TPC.critical]
          rw [hl]
          simp
        · rw [Function.update_noteq hj]
          exact hlock j
      · intro j r hj
        dsimp only at hj ⊢
        by_cases hji : j = i
        · subst hji
          rw [Function.update_same] at hj
          cases hj
          rfl
        · rw [Function.update_noteq hji] at hj
          exact hseq j r hj
  | writeRow i r hl hpc =>
      have hr : r = st.store.nextId := hseq i r hpc
      obtain ⟨hset, hnotmem⟩ :=
        appendedSet_update_insert st.pcs i TPC.inserted rfl (by rw [hpc]; rfl)
      have hcard : (appendedSet (Function.update st.pcs i TPC.inserted)).card =
          (appendedSet st.pcs).card + 1 := by
        rw [hset, Finset.card_insert_of_not_mem hnotmem]
      have hlen0 : s0.entries.length ≤ st.store.entries.length := by omega
      refine ⟨?_, ?_, ?_, ?_, ?_, ?_, ?_⟩
      · intro j
        dsimp only
        by_cases hj : j = i
        · subst hj
          simp [Function.update_same, TPC.critical, hl]
        · rw [Function.update_noteq hj]
          exact hlock j
      · intro j r' hj
        dsimp only at hj ⊢
        by_cases hji : j = i
        · subst hji
          rw [Function.update_same] at hj
          cases hj
        · rw [Function.update_noteq hji] at hj
          have hcrit : (st.pcs j).critical = true := by rw [hj]; rfl
          have hsome := (hlock j).1 hcrit
          rw [hl] at hsome
          exact absurd (Option.some.inj hsome).symm hji
      · dsimp only
        rw [hcard]
        omega
      · dsimp only
        simp only [List.length_append, List.length_singleton, hcard]
        omega
      · dsimp only
        rw [List.take_append_of_le_length hlen0]
        exact htake
      · dsimp only
        rw [List.drop_append_of_le_length hlen0, List.map_append, hids, hcard, hr, hnext]
        simp only [List.map_cons, List.map_nil]
        rw [List.range'_1_concat]
      · dsimp only
        rw [List.drop_append_of_le_length hlen0, List.map_append, hset,
          Finset.insert_val_of_not_mem hnotmem, Multiset.map_cons]
        simp only [List.map_cons, List.map_nil]
        rw [← Multiset.coe_add, ← hvals]
        have hsing : ((([vals i] : List ℚ)) : Multiset ℚ) = {vals i} := rfl
        rw [hsing, add_comm, Multiset.singleton_add]
  | commitRelease i hl hpc =>
      have hset : appendedSet (Function.update st.pcs i TPC.done) =
          appendedSet st.pcs :=
        appendedSet_update_of_eq st.pcs i TPC.done (by rw [hpc]; rfl)
      refine ⟨?_, ?_, by simpa [hset] using hnext, by simpa [hset] using hlen,
        htake, by simpa [hset] using hids, by simpa [hset] using hvals⟩
      · intro j
        dsimp only
        by_cases hj : j = i
        · subst hj
          simp [Function.update_same, TPC.critical]
        · rw [Function.update_noteq hj]
          constructor
          · intro hc
            have hsome := (hlock j).1 hc
            rw [hl] at hsome
            exact absurd (Option.some.inj hsome).symm hj
          · intro hc
            cases hc
      · intro j r hj
        dsimp only at hj ⊢
        by_cases hji : j = i
        · subst hji
          rw [Function.update_same] at hj
          cases hj
        · rw [Function.update_noteq hji] at hj
          have hcrit : (st.pcs j).critical = true := by rw [hj]; rfl
          have hsome := (hlock j).1 hcrit
          rw [hl] at hsome
          exact absurd (Option.some.inj hsome).symm hji

theorem concInv_reaches {n : Nat} {vals : Fin n → ℚ} {ts : Fin n → String}
    {s0 : Store} {st : CState n}
    (h : Reaches n vals ts (initState n s0) st) : ConcInv vals s0 st := by
  induction h with
  | refl => exact concInv_init n vals s0
  | tail _ hbc ih => exact concInv_step hbc ih

/-- Claim C8: `add_value` holds `DB_LOCK` for the whole
connect-insert-commit-release critical section, so any interleaving of `n`
concurrent insert calls that runs every thread to completion stores exactly
`n` new observations whose ids are the `n` consecutive fresh ids (hence
distinct and contiguous, no duplicates), and whose values are exactly the
`n` submitted values — no lost writes. -/
theorem concurrent_inserts (n : Nat) (vals : Fin n → ℚ) (ts : Fin n → String)
    (s0 : Store) (st : CState n)
    (hr : Reaches n vals ts (initState n s0) st)
    (hdone : ∀ i, st.pcs i = TPC.done) :
    st.store.entries.length = s0.entries.length + n ∧
    (st.store.entries.drop s0.entries.length).map Obs.id =
      List.range' s0.nextId n ∧
    ((st.store.entries.drop s0.entries.length).map Obs.id).Nodup ∧
    (((st.store.entries.drop s0.entries.length).map Obs.value : List ℚ) : Multiset ℚ) =
      Finset.univ.val.map vals := by
  obtain ⟨_, _, hnext, hlen, htake, hids, hvals⟩ := concInv_reaches hr
  have hall : appendedSet st.pcs = Finset.univ := by
    unfold appendedSet
    refine Finset.filter_true_of_mem ?_
    intro i _
    rw [hdone i]
    rfl
  have hcard : (appendedSet st.pcs).card = n := by
    rw [hall, Finset.card_univ, Fintype.card_fin]
  refine ⟨by omega, ?_, ?_, ?_⟩
  · rw [hids, hcard]
  · rw [hids, hcard]
    exact List.nodup_range' _ _
  · rw [hvals, hall]

/-- The program counter of the single demo thread after it has run its
whole critical section. -/
def demoPcs1 : Fin 1 → TPC :=
  Function.update (Function.update (Function.update
    (Function.update (fun _ => TPC.ready) 0 TPC.haveLock) 0 (TPC.gotSeq 1))
    0 TPC.inserted) 0 TPC.done

/-- The final state of one thread inserting 37 into a fresh store. -/
def demoFinal : CState 1 := ⟨⟨[⟨1, 37, "t"⟩], 2⟩, none, demoPcs1⟩

theorem concurrent_inserts_demo :
    demoFinal.store.entries.length = emptyStore.entries.length + 1 ∧
    (demoFinal.store.entries.drop emptyStore.entries.length).map Obs.id =
      List.range' emptyStore.nextId 1 ∧
    ((demoFinal.store.entries.drop emptyStore.entries.length).map Obs.id).Nodup ∧
    (((demoFinal.store.entries.drop emptyStore.entries.length).map Obs.value :
        List ℚ) : Multiset ℚ) =
      Finset.univ.val.map (fun _ : Fin 1 => (37 : ℚ)) :=
  concurrent_inserts 1 (fun _ => 37) (fun _ => "t") emptyStore demoFinal
    (by
      refine Relation.ReflTransGen.head (CStep.acquire _ 0 rfl rfl) ?_
      refine Relation.ReflTransGen.head (CStep.readSeq _ 0 rfl rfl) ?_
      refine Relation.ReflTransGen.head (CStep.writeRow _ 0 1 rfl rfl) ?_
      refine Relation.ReflTransGen.head (CStep.commitRelease _ 0 rfl rfl) ?_
      exact Relation.ReflTransGen.refl)
    (by decide)

end StatApp
